import Mathlib

/-!
Verification of the buffered lazy-indexing engine in indexify.py
(class BufferedImmutableIterable together with validate_slice).

The Python code is shallowly embedded: the producer (the iterator) is a
list of the values it has yet to yield, the deque buffer is a list with
explicit maxlen eviction, and every stateful method is a function from
the object state to a result paired with the updated state.  Fallible
operations return an Except value carrying the Python exception kind.
-/

set_option autoImplicit false

namespace Indexify

/-- Python exception kinds raised by the code under verification. -/
inductive Err where
  | indexError : Err
  | valueError : String → Err
  | typeError : Err
deriving DecidableEq, Repr

/-- A component of a Python slice object, as passed by a caller:
absent (None), a genuine int, a non-int object whose dunder index method
returns an int, an object whose dunder index method returns a non-int,
or an object without that method at all. -/
inductive SliceComp where
  | none : SliceComp
  | int (n : Int) : SliceComp
  | indexable (n : Int) : SliceComp
  | badIndexable : SliceComp
  | noIndexable : SliceComp
deriving DecidableEq, Repr

/-- A Python slice object: three components. -/
structure PySlice where
  start : SliceComp
  stop : SliceComp
  step : SliceComp
deriving DecidableEq, Repr

/-- Embeds a plain integer-or-absent value as a slice component. -/
def SliceComp.ofOpt : Option Int → SliceComp
  | Option.none => SliceComp.none
  | some n => SliceComp.int n

/-- Embedding of the helper that validates one slice component: None
passes through, anything with a dunder index method yielding an int is
converted, everything else is a TypeError. -/
def _validate_slice_component : SliceComp → Except Err (Option Int)
  | SliceComp.none => Except.ok Option.none
  | SliceComp.int n => Except.ok (some n)
  | SliceComp.indexable n => Except.ok (some n)
  | SliceComp.badIndexable => Except.error Err.typeError
  | SliceComp.noIndexable => Except.error Err.typeError

/-- Embedding of validate_slice: validates the three components in
order (start, stop, step), defaults an absent step to 1, rejects a zero
step, defaults an absent start to 0 for a positive step and -1 for a
negative step, and leaves the stop as is. -/
def validate_slice (sl : PySlice) : Except Err (Int × Option Int × Int) := do
  let start? ← _validate_slice_component sl.start
  let stop? ← _validate_slice_component sl.stop
  let step? ← _validate_slice_component sl.step
  let step := match step? with
    | Option.none => 1
    | some v => v
  if step = 0 then
    Except.error (Err.valueError "slice step cannot be zero")
  else
    let start := match start? with
      | Option.none => if 0 < step then 0 else -1
      | some v => v
    Except.ok (start, stop?, step)

/-- A successfully validated slice always has a nonzero step. -/
theorem validate_slice_step_ne_zero {sl : PySlice} {r : Int × Option Int × Int}
    (h : validate_slice sl = Except.ok r) : r.2.2 ≠ 0 := by
  unfold validate_slice at h
  cases hs : _validate_slice_component sl.start with
  | error e => rw [hs] at h; simp [Bind.bind, Except.bind] at h
  | ok a =>
    rw [hs] at h
    cases ht : _validate_slice_component sl.stop with
    | error e => rw [ht] at h; simp [Bind.bind, Except.bind] at h
    | ok b =>
      rw [ht] at h
      cases hp : _validate_slice_component sl.step with
      | error e => rw [hp] at h; simp [Bind.bind, Except.bind] at h
      | ok c =>
        rw [hp] at h
        simp only [Bind.bind, Except.bind] at h
        split at h
        · exact absurd h (by simp)
        · rename_i hz
          simp only [Except.ok.injEq] at h
          subst h
          exact hz

/-- Embedding of the object state of BufferedImmutableIterable:
the iterator (none once StopIteration has been observed, otherwise the
list of values not yet yielded), the deque buffer, the count of
elements read so far, and the optional maxlen. -/
structure BII (α : Type) where
  iterator : Option (List α)
  buffer : List α
  read : Nat
  maxlen : Option Nat
deriving DecidableEq, Repr

/-- Constructor: a fresh instance around an iterable. -/
def mkBII {α : Type} (l : List α) (m : Option Nat) : BII α :=
  ⟨some l, [], 0, m⟩

/-- The number of elements the iterator can still yield. -/
def remaining {α : Type} (s : BII α) : Nat :=
  match s.iterator with
  | Option.none => 0
  | some l => l.length

/-- The total number of elements the underlying iterable ever yields:
those already read plus those still to come. -/
def totalLen {α : Type} (s : BII α) : Int :=
  (s.read : Int) + (remaining s : Int)

/-- A deque append with optional maxlen: append on the right, then drop
from the left anything beyond the capacity. -/
def bufAppend {α : Type} (m : Option Nat) (b : List α) (v : α) : List α :=
  let b' := b ++ [v]
  match m with
  | Option.none => b'
  | some c => b'.drop (b'.length - c)

/-- Embedding of the method that reads one element: a spent iterator is
a no-op returning false; an exhausted one is marked spent and returns
false; otherwise the next value is appended to the buffer (with
eviction) and the read count is incremented. -/
def _read_one {α : Type} (s : BII α) : Bool × BII α :=
  match s.iterator with
  | Option.none => (false, s)
  | some [] => (false, { s with iterator := Option.none })
  | some (v :: rest) =>
      (true, { s with
        iterator := some rest,
        buffer := bufAppend s.maxlen s.buffer v,
        read := s.read + 1 })

/-- A successful read consumes one element of the iterator. -/
theorem _read_one_true_remaining {α : Type} (s : BII α)
    (h : (_read_one s).1 = true) : remaining (_read_one s).2 < remaining s := by
  match hit : s.iterator with
  | Option.none => simp [_read_one, hit] at h
  | some [] => simp [_read_one, hit] at h
  | some (v :: rest) => simp [_read_one, hit, remaining]

/-- Reading one element never changes the total number of elements the
iterable yields. -/
theorem _read_one_totalLen {α : Type} (s : BII α) :
    totalLen (_read_one s).2 = totalLen s := by
  match hit : s.iterator with
  | Option.none => simp [_read_one, hit]
  | some [] => simp [_read_one, totalLen, remaining, hit]
  | some (v :: rest) =>
    simp [_read_one, totalLen, remaining, hit]
    omega

/-- A failed read means the iterator has nothing left. -/
theorem _read_one_false_remaining {α : Type} (s : BII α)
    (h : ¬ (_read_one s).1 = true) : remaining s = 0 := by
  match hit : s.iterator with
  | Option.none => simp [remaining, hit]
  | some [] => simp [remaining, hit]
  | some (v :: rest) => simp [_read_one, hit] at h

/-- Embedding of the probe that determines whether the iterable has at
least the given number of elements, reading just far enough. -/
def _len_at_least {α : Type} (s : BII α) (amount : Int) : Bool × BII α :=
  if (s.read : Int) < amount then
    if h : (_read_one s).1 = true then _len_at_least (_read_one s).2 amount
    else (false, (_read_one s).2)
  else (true, s)
termination_by remaining s
decreasing_by exact _read_one_true_remaining s h

/-- Embedding of the probe that determines whether the iterable has at
most the given number of elements, by trying to read past that point. -/
def _len_at_most {α : Type} (s : BII α) (amount : Int) : Bool × BII α :=
  if (s.read : Int) ≤ amount then
    if h : (_read_one s).1 = true then _len_at_most (_read_one s).2 amount
    else (true, (_read_one s).2)
  else (false, s)
termination_by remaining s
decreasing_by exact _read_one_true_remaining s h

/-- Embedding of the len method body: read everything. -/
def drain {α : Type} (s : BII α) : BII α :=
  if h : (_read_one s).1 = true then drain (_read_one s).2
  else (_read_one s).2
termination_by remaining s
decreasing_by exact _read_one_true_remaining s h

/-- Embedding of the len method: drain the iterator and report the
total count of elements read. -/
def pyLen {α : Type} (s : BII α) : Nat × BII α :=
  let s' := drain s
  (s'.read, s')

/-- The at-least probe answers yes exactly when the iterable has at
least the requested number of elements, and it never changes the total
number the iterable yields. -/
theorem _len_at_least_spec {α : Type} (s : BII α) (amount : Int) :
    ((_len_at_least s amount).1 = true ↔ amount ≤ totalLen s) ∧
    totalLen (_len_at_least s amount).2 = totalLen s := by
  generalize hn : remaining s = n
  induction n using Nat.strong_induction_on generalizing s with
  | _ n ih =>
    unfold _len_at_least
    by_cases hlt : (s.read : Int) < amount
    · simp only [if_pos hlt]
      by_cases hr : (_read_one s).1 = true
      · simp only [dif_pos hr]
        have hrem : remaining (_read_one s).2 < n := hn ▸ _read_one_true_remaining s hr
        obtain ⟨ih1, ih2⟩ := ih _ hrem (_read_one s).2 rfl
        rw [ih1, ih2, _read_one_totalLen]
        exact ⟨Iff.rfl, rfl⟩
      · simp only [dif_neg hr]
        have h0 := _read_one_false_remaining s hr
        have htot : totalLen s = (s.read : Int) := by simp [totalLen, h0]
        refine ⟨?_, _read_one_totalLen s⟩
        rw [htot]
        simp
        omega
    · simp only [if_neg hlt]
      have : amount ≤ totalLen s := by
        have : (0 : Int) ≤ (remaining s : Int) := by positivity
        simp only [totalLen]; omega
      simp [this]

/-- The at-most probe answers yes exactly when the iterable has at most
the requested number of elements, and it never changes the total number
the iterable yields. -/
theorem _len_at_most_spec {α : Type} (s : BII α) (amount : Int) :
    ((_len_at_most s amount).1 = true ↔ totalLen s ≤ amount) ∧
    totalLen (_len_at_most s amount).2 = totalLen s := by
  generalize hn : remaining s = n
  induction n using Nat.strong_induction_on generalizing s with
  | _ n ih =>
    unfold _len_at_most
    by_cases hlt : (s.read : Int) ≤ amount
    · simp only [if_pos hlt]
      by_cases hr : (_read_one s).1 = true
      · simp only [dif_pos hr]
        have hrem : remaining (_read_one s).2 < n := hn ▸ _read_one_true_remaining s hr
        obtain ⟨ih1, ih2⟩ := ih _ hrem (_read_one s).2 rfl
        rw [ih1, ih2, _read_one_totalLen]
        exact ⟨Iff.rfl, rfl⟩
      · simp only [dif_neg hr]
        have h0 := _read_one_false_remaining s hr
        have htot : totalLen s = (s.read : Int) := by simp [totalLen, h0]
        refine ⟨?_, _read_one_totalLen s⟩
        rw [htot]
        simp
        omega
    · simp only [if_neg hlt]
      have : ¬ totalLen s ≤ amount := by
        have : (0 : Int) ≤ (remaining s : Int) := by positivity
        simp only [totalLen]; omega
      simp [this]

/-- Draining leaves nothing to read and preserves the total count. -/
theorem drain_spec {α : Type} (s : BII α) :
    remaining (drain s) = 0 ∧ totalLen (drain s) = totalLen s := by
  generalize hn : remaining s = n
  induction n using Nat.strong_induction_on generalizing s with
  | _ n ih =>
    unfold drain
    by_cases hr : (_read_one s).1 = true
    · simp only [dif_pos hr]
      have hrem : remaining (_read_one s).2 < n := hn ▸ _read_one_true_remaining s hr
      obtain ⟨ih1, ih2⟩ := ih _ hrem (_read_one s).2 rfl
      exact ⟨ih1, by rw [ih2, _read_one_totalLen]⟩
    · simp only [dif_neg hr]
      have h0 := _read_one_false_remaining s hr
      refine ⟨?_, _read_one_totalLen s⟩
      match hit : s.iterator with
      | Option.none => simp [_read_one, hit, remaining]
      | some l =>
        have hl : l = [] := by simpa [remaining, hit] using h0
        subst hl
        simp [_read_one, hit, remaining]

/-- After draining, the read count is the total length. -/
theorem drain_read {α : Type} (s : BII α) :
    ((drain s).read : Int) = totalLen s := by
  obtain ⟨h0, ht⟩ := drain_spec s
  have : totalLen (drain s) = ((drain s).read : Int) := by simp [totalLen, h0]
  omega

/-- Python indexing into a list (the deque access), with support for
negative indices counting from the end. -/
def pyGet {α : Type} (b : List α) (i : Int) : Except Err α :=
  let j := if i < 0 then i + (b.length : Int) else i
  if 0 ≤ j then
    match b[j.toNat]? with
    | some v => Except.ok v
    | Option.none => Except.error Err.indexError
  else Except.error Err.indexError

/-- The guard on negative indices: true when the instance is bounded
and the magnitude of the index exceeds the capacity. -/
def maxlenLT (m : Option Nat) (index : Int) : Bool :=
  match m with
  | Option.none => false
  | some c => decide ((c : Int) < -index)

/-- The shared tail of the single-index lookup: probe for enough
elements, then index the buffer from its logical end. -/
def _get_item_tail {α : Type} (s : BII α) (index : Int) : Except Err α × BII α :=
  if ((_len_at_least s (index + 1)).1 : Bool) then
    (pyGet (_len_at_least s (index + 1)).2.buffer
      (index - ((_len_at_least s (index + 1)).2.read : Int)),
     (_len_at_least s (index + 1)).2)
  else (Except.error Err.indexError, (_len_at_least s (index + 1)).2)

/-- Embedding of the single-index lookup: a negative index beyond a
bounded capacity fails at once; other negative indices are shifted by
the full length (forcing a drain); then the shared tail runs. -/
def _get_item {α : Type} (s : BII α) (index : Int) : Except Err α × BII α :=
  if index < 0 then
    if maxlenLT s.maxlen index then (Except.error Err.indexError, s)
    else _get_item_tail (pyLen s).2 (index + ((pyLen s).1 : Int))
  else _get_item_tail s index

/-- The single-index lookup never changes the total number of elements
the iterable yields. -/
theorem _get_item_totalLen {α : Type} (s : BII α) (index : Int) :
    totalLen (_get_item s index).2 = totalLen s := by
  unfold _get_item _get_item_tail pyLen
  by_cases hneg : index < 0
  · simp only [if_pos hneg]
    by_cases hml : maxlenLT s.maxlen index = true
    · simp [hml]
    · simp only [hml, Bool.false_eq_true, if_false]
      split
      · simp [(_len_at_least_spec _ _).2, (drain_spec s).2]
      · simp [(_len_at_least_spec _ _).2, (drain_spec s).2]
  · simp only [if_neg hneg]
    split
    · simp [(_len_at_least_spec _ _).2]
    · simp [(_len_at_least_spec _ _).2]

/-- Embedding of the termination test of the slice generator. -/
def valid_index {α : Type} (s : BII α) (current : Int) (stop : Option Int)
    (step : Int) (start_negative : Bool) : Bool × BII α :=
  if decide (current < 0) ≠ start_negative then (false, s)
  else
    match stop with
    | Option.none =>
        _len_at_least s (if current < 0 then -current else current + 1)
    | some stp =>
        let lh := if 0 < step then (current, stp) else (stp, current)
        if decide (lh.2 < 0) = decide (lh.1 < 0) then (decide (lh.1 < lh.2), s)
        else if lh.2 < 0 then _len_at_least s (lh.1 - lh.2 + 1)
        else _len_at_most s (lh.2 - lh.1 - 1)

/-- The termination test never changes the total number of elements. -/
theorem valid_index_totalLen {α : Type} (s : BII α) (current : Int)
    (stop : Option Int) (step : Int) (sn : Bool) :
    totalLen (valid_index s current stop step sn).2 = totalLen s := by
  unfold valid_index
  split
  · rfl
  · match stop with
    | Option.none => exact (_len_at_least_spec _ _).2
    | some stp =>
      simp only
      split
      all_goals
        split
        · rfl
        · split
          · exact (_len_at_least_spec _ _).2
          · exact (_len_at_most_spec _ _).2

/-- An upper or lower limit that the current position can never pass
while the termination test keeps succeeding. -/
def sliceBound (T : Int) (stop : Option Int) (sn : Bool) (step : Int) : Int :=
  match stop with
  | Option.none =>
      if 0 < step then (if sn then 0 else T) else (if sn then -T - 1 else -1)
  | some stp =>
      if sn then (if stp < 0 then stp else stp - T)
      else (if stp < 0 then T + stp else stp)

/-- Fuel for the slice loop: the distance from the current position to
the bound, in the direction of iteration. -/
def sliceMeasure {α : Type} (s : BII α) (current : Int) (stop : Option Int)
    (sn : Bool) (step : Int) : Nat :=
  (if 0 < step then sliceBound (totalLen s) stop sn step - current
   else current - sliceBound (totalLen s) stop sn step).toNat

/-- When the termination test succeeds, the current position is still
strictly inside the bound for the direction of iteration. -/
theorem valid_index_bound {α : Type} (s : BII α) (current : Int)
    (stop : Option Int) (step : Int) (sn : Bool)
    (h : (valid_index s current stop step sn).1 = true) :
    (0 < step → current < sliceBound (totalLen s) stop sn step) ∧
    (step < 0 → sliceBound (totalLen s) stop sn step < current) := by
  unfold valid_index at h
  by_cases hsn : decide (current < 0) ≠ sn
  · rw [if_pos hsn] at h; exact absurd h (by simp)
  · rw [if_neg hsn] at h
    push_neg at hsn
    match stop with
    | Option.none =>
      simp only at h
      rw [(_len_at_least_spec _ _).1] at h
      by_cases hc : current < 0
      · have hsn' : sn = true := by rw [← hsn]; simp [hc]
        rw [if_pos hc] at h
        subst hsn'
        refine ⟨fun hp => ?_, fun hm => ?_⟩
        · simp [sliceBound, hp]
          exact hc
        · have hnp : ¬ 0 < step := by omega
          simp [sliceBound, hnp]
          omega
      · have hsn' : sn = false := by rw [← hsn]; simp [hc]
        rw [if_neg hc] at h
        subst hsn'
        refine ⟨fun hp => ?_, fun hm => ?_⟩
        · simp [sliceBound, hp]
          omega
        · have hnp : ¬ 0 < step := by omega
          simp [sliceBound, hnp]
          omega
    | some stp =>
      simp only at h
      by_cases hpos : 0 < step
      · rw [if_pos hpos] at h
        simp only at h
        have hnn : ¬ step < 0 := by omega
        refine ⟨fun _ => ?_, fun hneg => absurd hneg hnn⟩
        by_cases hsame : decide (stp < 0) = decide (current < 0)
        · rw [if_pos hsame] at h
          simp only [decide_eq_true_eq] at h
          have hiff : stp < 0 ↔ current < 0 := decide_eq_decide.mp hsame
          by_cases hc : current < 0
          · have hsn' : sn = true := by rw [← hsn]; simp [hc]
            have hstp : stp < 0 := hiff.mpr hc
            subst hsn'
            simp [sliceBound, hstp]
            omega
          · have hsn' : sn = false := by rw [← hsn]; simp [hc]
            have hstp : ¬ stp < 0 := fun hx => hc (hiff.mp hx)
            subst hsn'
            simp [sliceBound, hstp]
            omega
        · rw [if_neg hsame] at h
          by_cases hstp : stp < 0
          · rw [if_pos hstp] at h
            rw [(_len_at_least_spec _ _).1] at h
            have hc : ¬ current < 0 := fun hc => hsame (by simp [hstp, hc])
            have hsn' : sn = false := by rw [← hsn]; simp [hc]
            subst hsn'
            simp [sliceBound, hstp]
            omega
          · rw [if_neg hstp] at h
            rw [(_len_at_most_spec _ _).1] at h
            have hc : current < 0 := by
              by_contra hc
              exact hsame (by simp [hstp, hc])
            have hsn' : sn = true := by rw [← hsn]; simp [hc]
            subst hsn'
            simp [sliceBound, hstp]
            omega
      · rw [if_neg hpos] at h
        simp only at h
        refine ⟨fun hp => absurd hp hpos, fun _ => ?_⟩
        by_cases hsame : decide (current < 0) = decide (stp < 0)
        · rw [if_pos hsame] at h
          simp only [decide_eq_true_eq] at h
          have hiff : current < 0 ↔ stp < 0 := decide_eq_decide.mp hsame
          by_cases hc : current < 0
          · have hsn' : sn = true := by rw [← hsn]; simp [hc]
            have hstp : stp < 0 := hiff.mp hc
            subst hsn'
            simp [sliceBound, hstp]
            omega
          · have hsn' : sn = false := by rw [← hsn]; simp [hc]
            have hstp : ¬ stp < 0 := fun hx => hc (hiff.mpr hx)
            subst hsn'
            simp [sliceBound, hstp]
            omega
        · rw [if_neg hsame] at h
          by_cases hc : current < 0
          · rw [if_pos hc] at h
            rw [(_len_at_least_spec _ _).1] at h
            have hstp : ¬ stp < 0 := fun hstp => hsame (by simp [hstp, hc])
            have hsn' : sn = true := by rw [← hsn]; simp [hc]
            subst hsn'
            simp [sliceBound, hstp]
            omega
          · rw [if_neg hc] at h
            rw [(_len_at_most_spec _ _).1] at h
            have hstp : stp < 0 := by
              by_contra hstp
              exact hsame (by simp [hstp, hc])
            have hsn' : sn = false := by rw [← hsn]; simp [hc]
            subst hsn'
            simp [sliceBound, hstp]
            omega

/-- One slice-loop iteration strictly shrinks the distance to the
bound. -/
theorem sliceMeasure_decreases {α : Type} {s s₁ s₂ : BII α} {current : Int}
    {stop : Option Int} {step : Int} {sn : Bool} {v : α} (hstep : step ≠ 0)
    (hv : valid_index s current stop step sn = (true, s₁))
    (hg : _get_item s₁ current = (Except.ok v, s₂)) :
    sliceMeasure s₂ (current + step) stop sn step
      < sliceMeasure s current stop sn step := by
  have hb := valid_index_bound s current stop step sn (by rw [hv])
  have ht1 : totalLen s₁ = totalLen s := by
    have hx := valid_index_totalLen s current stop step sn
    rw [hv] at hx
    exact hx
  have ht2 : totalLen s₂ = totalLen s := by
    have hx := _get_item_totalLen s₁ current
    rw [hg] at hx
    rw [hx, ht1]
  unfold sliceMeasure
  rw [ht2]
  rcases lt_trichotomy step 0 with hneg | hz | hpos
  · have hlt := hb.2 hneg
    rw [if_neg (by omega), if_neg (by omega)]
    omega
  · exact absurd hz hstep
  · have hlt := hb.1 hpos
    rw [if_pos hpos, if_pos hpos]
    omega

/-- Embedding of the while loop of the slice generator, materialized
the way the getitem method materializes it into a tuple: test, yield
the element at the current position, advance by step.  An IndexError
raised by the lookup propagates; the state mutated so far is kept. -/
def islice_loop {α : Type} (s : BII α) (current : Int) (stop : Option Int)
    (step : Int) (sn : Bool) (hstep : step ≠ 0) : Except Err (List α) × BII α :=
  match hv : valid_index s current stop step sn with
  | (false, s₁) => (Except.ok [], s₁)
  | (true, s₁) =>
    match hg : _get_item s₁ current with
    | (Except.error e, s₂) => (Except.error e, s₂)
    | (Except.ok v, s₂) =>
      match islice_loop s₂ (current + step) stop step sn hstep with
      | (Except.error e, s₃) => (Except.error e, s₃)
      | (Except.ok vs, s₃) => (Except.ok (v :: vs), s₃)
termination_by sliceMeasure s current stop sn step
decreasing_by exact sliceMeasure_decreases hstep hv hg

/-- Embedding of the first trimming block of the islice method: when
iterating backwards from a nonnegative start past the end of the data,
snap the start down into range along the lattice of the step (this
drains the iterable to learn the length). -/
def trim_backward {α : Type} (s : BII α) (c₀ : Int) (step : Int) : Int × BII α :=
  if step < 0 ∧ 0 ≤ c₀ then
    if (_len_at_least s (c₀ + 1)).1 then (c₀, (_len_at_least s (c₀ + 1)).2)
    else
      (c₀ - ((c₀ - (((pyLen (_len_at_least s (c₀ + 1)).2).1 : Int) - 1)).fdiv step) * step,
       (pyLen (_len_at_least s (c₀ + 1)).2).2)
  else (c₀, s)

/-- Embedding of the second trimming block of the islice method: when
iterating forwards from a negative start before the beginning of the
data, snap the start up into range along the lattice of the step. -/
def trim_forward {α : Type} (s : BII α) (c : Int) (step : Int) : Int × BII α :=
  if 0 < step ∧ c < 0 then
    if (_len_at_least s (-c)).1 then (c, (_len_at_least s (-c)).2)
    else
      (c - ((c - (-((pyLen (_len_at_least s (-c)).2).1 : Int))).fdiv step) * step,
       (pyLen (_len_at_least s (-c)).2).2)
  else (c, s)

/-- Embedding of the islice generator method: validate the slice, trim
the start position when it lies on the wrong side of the data for the
iteration direction, then run the loop. -/
def _islice {α : Type} (s : BII α) (sl : PySlice) : Except Err (List α) × BII α :=
  match hv : validate_slice sl with
  | Except.error e => (Except.error e, s)
  | Except.ok (c₀, stop, step) =>
    let r₁ : Int × BII α := trim_backward s c₀ step
    let r₂ : Int × BII α := trim_forward r₁.2 r₁.1 step
    islice_loop r₂.2 r₂.1 stop step (decide (r₂.1 < 0)) (validate_slice_step_ne_zero hv)

/-- The possible shapes of an argument to the getitem method: a real
int, a slice object, a non-int object carrying only a dunder index
conversion, or anything else. -/
inductive PyIndex where
  | int (n : Int) : PyIndex
  | slice (sl : PySlice) : PyIndex
  | indexable (n : Int) : PyIndex
  | other : PyIndex
deriving DecidableEq, Repr

/-- The result of the getitem method: a single element for an int
argument, a materialized tuple for a slice argument. -/
inductive GetResult (α : Type) where
  | single (v : α) : GetResult α
  | tuple (vs : List α) : GetResult α
deriving DecidableEq, Repr

/-- Embedding of the getitem method: an int argument goes to the
single-index lookup, a slice argument is materialized through the
generator, anything else is a TypeError raised before touching any
state. -/
def getitem {α : Type} (s : BII α) (ix : PyIndex) : Except Err (GetResult α) × BII α :=
  match ix with
  | PyIndex.int n =>
    ((_get_item s n).1.map GetResult.single, (_get_item s n).2)
  | PyIndex.slice sl =>
    ((_islice s sl).1.map GetResult.tuple, (_islice s sl).2)
  | PyIndex.indexable _ => (Except.error Err.typeError, s)
  | PyIndex.other => (Except.error Err.typeError, s)

/-- The states of an instance built over the iterable l with maxlen m
that are reachable by any sequence of public operations. -/
inductive Reachable {α : Type} (l : List α) (m : Option Nat) : BII α → Prop where
  | init : Reachable l m (mkBII l m)
  | getitem_step (s : BII α) (ix : PyIndex) :
      Reachable l m s → Reachable l m (getitem s ix).2
  | len_step (s : BII α) : Reachable l m s → Reachable l m (pyLen s).2
  | islice_step (s : BII α) (sl : PySlice) :
      Reachable l m s → Reachable l m (_islice s sl).2

/-- The buffer contents after k elements have been pulled: the last
elements of the length-k prefix of l, up to the capacity. -/
def bufAt {α : Type} (l : List α) (m : Option Nat) (k : Nat) : List α :=
  (l.take k).drop (k - m.getD k)

/-- The canonical shape of a state in which k of the elements of l have
been pulled, with the spent flag recording whether StopIteration has
already been observed. -/
def stateAt {α : Type} (l : List α) (m : Option Nat) (k : Nat) (spent : Bool) : BII α :=
  ⟨if spent then Option.none else some (l.drop k), bufAt l m k, k, m⟩

/-- The canonical state with the spent flag off, written out. -/
theorem stateAt_false {α : Type} (l : List α) (m : Option Nat) (k : Nat) :
    stateAt l m k false = ⟨some (l.drop k), bufAt l m k, k, m⟩ := by
  simp [stateAt]

/-- The canonical state with the spent flag on, written out. -/
theorem stateAt_true {α : Type} (l : List α) (m : Option Nat) (k : Nat) :
    stateAt l m k true = ⟨Option.none, bufAt l m k, k, m⟩ := by
  simp [stateAt]

/-- The buffer window has the expected length. -/
theorem length_bufAt {α : Type} (l : List α) (m : Option Nat) (k : Nat)
    (hk : k ≤ l.length) : (bufAt l m k).length = min k (m.getD k) := by
  unfold bufAt
  rw [List.length_drop, List.length_take]
  omega

/-- Looking into the buffer window is looking into the right spot of
the underlying list. -/
theorem getElem?_bufAt {α : Type} (l : List α) (m : Option Nat) (k q : Nat)
    (hk : k ≤ l.length) (hq : q < (bufAt l m k).length) :
    (bufAt l m k)[q]? = l[k - m.getD k + q]? := by
  have hlen := length_bufAt l m k hk
  unfold bufAt at *
  rw [List.getElem?_drop, List.getElem?_take, if_pos (by omega)]

/-- Appending the next element of the list to the buffer window slides
the window forward. -/
theorem bufAppend_bufAt {α : Type} (l : List α) (m : Option Nat) (k : Nat)
    (h : k < l.length) :
    bufAppend m (bufAt l m k) (l.get ⟨k, h⟩) = bufAt l m (k + 1) := by
  have htake : l.take (k + 1) = l.take k ++ [l.get ⟨k, h⟩] := by
    rw [List.take_succ]
    simp [List.getElem?_eq_getElem h]
  have hlentake : (l.take k).length = k := by
    rw [List.length_take]; omega
  match m with
  | Option.none =>
    show bufAt l Option.none k ++ [l.get ⟨k, h⟩] = bufAt l Option.none (k + 1)
    unfold bufAt
    simp only [Option.getD_none, Nat.sub_self, List.drop_zero]
    exact htake.symm
  | some c =>
    show (((bufAt l (some c) k) ++ [l.get ⟨k, h⟩]).drop
        (((bufAt l (some c) k) ++ [l.get ⟨k, h⟩]).length - c)) = bufAt l (some c) (k + 1)
    have hb : bufAt l (some c) k ++ [l.get ⟨k, h⟩] = (l.take (k + 1)).drop (k - c) := by
      unfold bufAt
      simp only [Option.getD_some]
      rw [htake, List.drop_append_of_le_length (by omega)]
    have hblen : ((l.take (k + 1)).drop (k - c)).length = k + 1 - (k - c) := by
      rw [List.length_drop, List.length_take]
      omega
    rw [hb, hblen]
    unfold bufAt
    simp only [Option.getD_some]
    rw [List.drop_drop]
    congr 1
    omega

/-- Reading one element from a live state that still has data. -/
theorem _read_one_stateAt_lt {α : Type} (l : List α) (m : Option Nat) (k : Nat)
    (h : k < l.length) :
    _read_one (stateAt l m k false) = (true, stateAt l m (k + 1) false) := by
  have hdrop : l.drop k = l.get ⟨k, h⟩ :: l.drop (k + 1) := List.drop_eq_getElem_cons h
  rw [stateAt_false, stateAt_false]
  unfold _read_one
  simp only [hdrop]
  rw [bufAppend_bufAt l m k h]

/-- Reading one element from a live state that is out of data marks it
spent. -/
theorem _read_one_stateAt_end {α : Type} (l : List α) (m : Option Nat) :
    _read_one (stateAt l m l.length false) = (false, stateAt l m l.length true) := by
  rw [stateAt_false, stateAt_true]
  unfold _read_one
  simp [List.drop_length]

/-- Reading one element from a spent state is a no-op. -/
theorem _read_one_stateAt_spent {α : Type} (l : List α) (m : Option Nat) (k : Nat) :
    _read_one (stateAt l m k true) = (false, stateAt l m k true) := by
  rw [stateAt_true]
  unfold _read_one
  simp

/-- What the at-least probe does to a canonical state: it reports
whether the list is long enough, advances the read count as far as the
request demands (but no further than the data), and flips the spent
flag exactly when it had to run past the end. -/
theorem _len_at_least_stateAt {α : Type} (l : List α) (m : Option Nat) (k : Nat)
    (spent : Bool) (a : Int) (hk : k ≤ l.length) (hsp : spent = true → k = l.length) :
    _len_at_least (stateAt l m k spent) a =
      (decide (a ≤ (l.length : Int)),
       stateAt l m (min (max k a.toNat) l.length)
         (spent || decide ((l.length : Int) < a))) := by
  generalize hn : l.length - k = n
  induction n using Nat.strong_induction_on generalizing k spent with
  | _ n ih =>
    unfold _len_at_least
    have hread : (stateAt l m k spent).read = k := rfl
    rw [hread]
    by_cases hlt : (k : Int) < a
    · rw [if_pos hlt]
      by_cases hspent : spent = true
      · subst hspent
        have hkL : k = l.length := hsp rfl
        rw [_read_one_stateAt_spent]
        simp only
        rw [dif_neg (by simp)]
        have h1 : min (max k a.toNat) l.length = k := by omega
        have h2 : decide (a ≤ (l.length : Int)) = false := by
          simp only [decide_eq_false_iff_not]
          omega
        rw [h1, h2]
        simp
      · have hspf : spent = false := by simpa using hspent
        subst hspf
        by_cases hkL : k < l.length
        · rw [_read_one_stateAt_lt l m k hkL]
          simp only
          rw [dif_pos (by trivial)]
          rw [ih (l.length - (k + 1)) (by omega) (k + 1) false (by omega) (by simp) rfl]
          have h1 : min (max (k + 1) a.toNat) l.length = min (max k a.toNat) l.length := by
            omega
          rw [h1]
        · have hkL' : k = l.length := by omega
          subst hkL'
          rw [_read_one_stateAt_end]
          simp only
          rw [dif_neg (by simp)]
          have h1 : min (max l.length a.toNat) l.length = l.length := by omega
          have h2 : decide (a ≤ (l.length : Int)) = false := by
            simp only [decide_eq_false_iff_not]
            omega
          have h3 : decide ((l.length : Int) < a) = true := by
            simp only [decide_eq_true_eq]
            omega
          rw [h1, h2, h3]
          simp
    · rw [if_neg hlt]
      have h1 : min (max k a.toNat) l.length = k := by omega
      have h2 : decide (a ≤ (l.length : Int)) = true := by
        simp only [decide_eq_true_eq]
        omega
      have h3 : decide ((l.length : Int) < a) = false := by
        simp only [decide_eq_false_iff_not]
        omega
      rw [h1, h2, h3]
      simp

/-- What the at-most probe does to a canonical state. -/
theorem _len_at_most_stateAt {α : Type} (l : List α) (m : Option Nat) (k : Nat)
    (spent : Bool) (a : Int) (hk : k ≤ l.length) (hsp : spent = true → k = l.length) :
    _len_at_most (stateAt l m k spent) a =
      (decide ((l.length : Int) ≤ a),
       stateAt l m (min (max k (a + 1).toNat) l.length)
         (spent || decide ((l.length : Int) ≤ a))) := by
  generalize hn : l.length - k = n
  induction n using Nat.strong_induction_on generalizing k spent with
  | _ n ih =>
    unfold _len_at_most
    have hread : (stateAt l m k spent).read = k := rfl
    rw [hread]
    by_cases hlt : (k : Int) ≤ a
    · rw [if_pos hlt]
      by_cases hspent : spent = true
      · subst hspent
        have hkL : k = l.length := hsp rfl
        rw [_read_one_stateAt_spent]
        simp only
        rw [dif_neg (by simp)]
        have h1 : min (max k (a + 1).toNat) l.length = k := by omega
        have h2 : decide ((l.length : Int) ≤ a) = true := by
          simp only [decide_eq_true_eq]
          omega
        rw [h1, h2]
        simp
      · have hspf : spent = false := by simpa using hspent
        subst hspf
        by_cases hkL : k < l.length
        · rw [_read_one_stateAt_lt l m k hkL]
          simp only
          rw [dif_pos (by trivial)]
          rw [ih (l.length - (k + 1)) (by omega) (k + 1) false (by omega) (by simp) rfl]
          have h1 : min (max (k + 1) (a + 1).toNat) l.length
              = min (max k (a + 1).toNat) l.length := by
            omega
          rw [h1]
        · have hkL' : k = l.length := by omega
          subst hkL'
          rw [_read_one_stateAt_end]
          simp only
          rw [dif_neg (by simp)]
          have h1 : min (max l.length (a + 1).toNat) l.length = l.length := by omega
          have h2 : decide ((l.length : Int) ≤ a) = true := by
            simp only [decide_eq_true_eq]
            omega
          rw [h1, h2]
          simp
    · rw [if_neg hlt]
      have h1 : min (max k (a + 1).toNat) l.length = k := by omega
      have h2 : decide ((l.length : Int) ≤ a) = false := by
        simp only [decide_eq_false_iff_not]
        omega
      rw [h1, h2]
      simp

/-- Draining a canonical state reads everything and marks it spent. -/
theorem drain_stateAt {α : Type} (l : List α) (m : Option Nat) (k : Nat)
    (spent : Bool) (hk : k ≤ l.length) (hsp : spent = true → k = l.length) :
    drain (stateAt l m k spent) = stateAt l m l.length true := by
  generalize hn : l.length - k = n
  induction n using Nat.strong_induction_on generalizing k spent with
  | _ n ih =>
    unfold drain
    by_cases hspent : spent = true
    · subst hspent
      have hkL : k = l.length := hsp rfl
      subst hkL
      rw [_read_one_stateAt_spent]
      simp
    · have hspf : spent = false := by simpa using hspent
      subst hspf
      by_cases hkL : k < l.length
      · rw [_read_one_stateAt_lt l m k hkL]
        simp only
        rw [dif_pos (by trivial)]
        exact ih (l.length - (k + 1)) (by omega) (k + 1) false (by omega) (by simp) rfl
      · have hkL' : k = l.length := by omega
        subst hkL'
        rw [_read_one_stateAt_end]
        simp

/-- The len method on a canonical state returns the true length and
leaves the state drained. -/
theorem pyLen_stateAt {α : Type} (l : List α) (m : Option Nat) (k : Nat)
    (spent : Bool) (hk : k ≤ l.length) (hsp : spent = true → k = l.length) :
    pyLen (stateAt l m k spent) = (l.length, stateAt l m l.length true) := by
  unfold pyLen
  rw [drain_stateAt l m k spent hk hsp]
  rfl

/-- The read count of a canonical state. -/
theorem read_stateAt {α : Type} (l : List α) (m : Option Nat) (k : Nat) (spent : Bool) :
    (stateAt l m k spent).read = k := rfl

/-- The buffer of a canonical state. -/
theorem buffer_stateAt {α : Type} (l : List α) (m : Option Nat) (k : Nat) (spent : Bool) :
    (stateAt l m k spent).buffer = bufAt l m k := rfl

/-- The maxlen of a canonical state. -/
theorem maxlen_stateAt {α : Type} (l : List α) (m : Option Nat) (k : Nat) (spent : Bool) :
    (stateAt l m k spent).maxlen = m := rfl

/-- Indexing the buffer window from its end finds the element when the
position is still retained. -/
theorem pyGet_bufAt_found {α : Type} (l : List α) (m : Option Nat) (k' : Nat) (i : Int)
    (hk' : k' ≤ l.length) (hi : 0 ≤ i) (hik : i < (k' : Int))
    (hgl : i.toNat < l.length) (hret : k' ≤ m.getD k' + i.toNat) :
    pyGet (bufAt l m k') (i - (k' : Int)) = Except.ok (l.get ⟨i.toNat, hgl⟩) := by
  have hlen := length_bufAt l m k' hk'
  unfold pyGet
  simp only [hlen]
  rw [if_pos (by omega : i - (k' : Int) < 0)]
  rw [if_pos (by omega : (0 : Int) ≤ i - (k' : Int) + ((min k' (m.getD k') : Nat) : Int))]
  have hJ : (i - (k' : Int) + ((min k' (m.getD k') : Nat) : Int)).toNat
      = min k' (m.getD k') - (k' - i.toNat) := by omega
  rw [hJ]
  rw [getElem?_bufAt l m k' _ hk' (by rw [hlen]; omega)]
  have hidx : k' - m.getD k' + (min k' (m.getD k') - (k' - i.toNat)) = i.toNat := by omega
  rw [hidx]
  rw [List.getElem?_eq_getElem hgl]
  rfl

/-- Indexing the buffer window from its end misses when the position
has been evicted. -/
theorem pyGet_bufAt_evicted {α : Type} (l : List α) (m : Option Nat) (k' : Nat) (i : Int)
    (hk' : k' ≤ l.length) (hi : 0 ≤ i) (hik : i < (k' : Int))
    (hmiss : m.getD k' + i.toNat < k') :
    pyGet (bufAt l m k') (i - (k' : Int)) = Except.error Err.indexError := by
  have hlen := length_bufAt l m k' hk'
  unfold pyGet
  simp only [hlen]
  rw [if_pos (by omega : i - (k' : Int) < 0)]
  rw [if_neg (by omega : ¬ (0 : Int) ≤ i - (k' : Int) + ((min k' (m.getD k') : Nat) : Int))]

/-- The shared lookup tail on a nonnegative in-range retained index. -/
theorem _get_item_tail_found {α : Type} (l : List α) (m : Option Nat) (k : Nat)
    (spent : Bool) (i : Int) (hk : k ≤ l.length) (hsp : spent = true → k = l.length)
    (hi : 0 ≤ i) (hgl : i.toNat < l.length)
    (hret : max k (i.toNat + 1) ≤ m.getD (max k (i.toNat + 1)) + i.toNat) :
    _get_item_tail (stateAt l m k spent) i =
      (Except.ok (l.get ⟨i.toNat, hgl⟩), stateAt l m (max k (i.toNat + 1)) spent) := by
  have hchar := _len_at_least_stateAt l m k spent (i + 1) hk hsp
  rw [show min (max k (i + 1).toNat) l.length = max k (i.toNat + 1) from by omega] at hchar
  rw [show decide (i + 1 ≤ (l.length : Int)) = true from by simp; omega] at hchar
  rw [show decide ((l.length : Int) < i + 1) = false from by simp; omega] at hchar
  rw [Bool.or_false] at hchar
  unfold _get_item_tail
  rw [hchar]
  simp only [read_stateAt, buffer_stateAt, if_true]
  rw [pyGet_bufAt_found l m (max k (i.toNat + 1)) i (by omega) hi (by omega) hgl hret]

/-- The shared lookup tail on a nonnegative in-range evicted index. -/
theorem _get_item_tail_evicted {α : Type} (l : List α) (m : Option Nat) (k : Nat)
    (spent : Bool) (i : Int) (hk : k ≤ l.length) (hsp : spent = true → k = l.length)
    (hi : 0 ≤ i) (hgl : i.toNat < l.length)
    (hmiss : m.getD (max k (i.toNat + 1)) + i.toNat < max k (i.toNat + 1)) :
    _get_item_tail (stateAt l m k spent) i =
      (Except.error Err.indexError, stateAt l m (max k (i.toNat + 1)) spent) := by
  have hchar := _len_at_least_stateAt l m k spent (i + 1) hk hsp
  rw [show min (max k (i + 1).toNat) l.length = max k (i.toNat + 1) from by omega] at hchar
  rw [show decide (i + 1 ≤ (l.length : Int)) = true from by simp; omega] at hchar
  rw [show decide ((l.length : Int) < i + 1) = false from by simp; omega] at hchar
  rw [Bool.or_false] at hchar
  unfold _get_item_tail
  rw [hchar]
  simp only [read_stateAt, buffer_stateAt, if_true]
  rw [pyGet_bufAt_evicted l m (max k (i.toNat + 1)) i (by omega) hi (by omega) hmiss]

/-- The shared lookup tail on an index at or past the end of the data:
the probe drains everything and the lookup raises IndexError. -/
theorem _get_item_tail_oob {α : Type} (l : List α) (m : Option Nat) (k : Nat)
    (spent : Bool) (i : Int) (hk : k ≤ l.length) (hsp : spent = true → k = l.length)
    (hiL : (l.length : Int) ≤ i) :
    _get_item_tail (stateAt l m k spent) i =
      (Except.error Err.indexError, stateAt l m l.length true) := by
  have hchar := _len_at_least_stateAt l m k spent (i + 1) hk hsp
  rw [show min (max k (i + 1).toNat) l.length = l.length from by omega] at hchar
  rw [show decide (i + 1 ≤ (l.length : Int)) = false from by simp; omega] at hchar
  rw [show decide ((l.length : Int) < i + 1) = true from by simp; omega] at hchar
  rw [Bool.or_true] at hchar
  unfold _get_item_tail
  rw [hchar]
  simp only [Bool.false_eq_true, if_false]

/-- The single-index lookup on a nonnegative in-range retained index
returns the element of the materialized list. -/
theorem _get_item_stateAt_found {α : Type} (l : List α) (m : Option Nat) (k : Nat)
    (spent : Bool) (i : Int) (hk : k ≤ l.length) (hsp : spent = true → k = l.length)
    (hi : 0 ≤ i) (hgl : i.toNat < l.length)
    (hret : max k (i.toNat + 1) ≤ m.getD (max k (i.toNat + 1)) + i.toNat) :
    _get_item (stateAt l m k spent) i =
      (Except.ok (l.get ⟨i.toNat, hgl⟩), stateAt l m (max k (i.toNat + 1)) spent) := by
  unfold _get_item
  rw [if_neg (by omega : ¬ i < 0)]
  exact _get_item_tail_found l m k spent i hk hsp hi hgl hret

/-- The single-index lookup on a nonnegative in-range evicted index
raises IndexError, leaving the read count where it was. -/
theorem _get_item_stateAt_evicted {α : Type} (l : List α) (m : Option Nat) (k : Nat)
    (spent : Bool) (i : Int) (hk : k ≤ l.length) (hsp : spent = true → k = l.length)
    (hi : 0 ≤ i) (hgl : i.toNat < l.length)
    (hmiss : m.getD (max k (i.toNat + 1)) + i.toNat < max k (i.toNat + 1)) :
    _get_item (stateAt l m k spent) i =
      (Except.error Err.indexError, stateAt l m (max k (i.toNat + 1)) spent) := by
  unfold _get_item
  rw [if_neg (by omega : ¬ i < 0)]
  exact _get_item_tail_evicted l m k spent i hk hsp hi hgl hmiss

/-- The single-index lookup past the end of the data raises IndexError
after draining everything. -/
theorem _get_item_stateAt_oob {α : Type} (l : List α) (m : Option Nat) (k : Nat)
    (spent : Bool) (i : Int) (hk : k ≤ l.length) (hsp : spent = true → k = l.length)
    (hiL : (l.length : Int) ≤ i) :
    _get_item (stateAt l m k spent) i =
      (Except.error Err.indexError, stateAt l m l.length true) := by
  unfold _get_item
  rw [if_neg (by omega : ¬ i < 0)]
  exact _get_item_tail_oob l m k spent i hk hsp hiL

/-- A negative index whose magnitude exceeds a bounded capacity fails
at once, on any state whatever, with no state change. -/
theorem _get_item_neg_capacity {α : Type} (s : BII α) (i : Int) (C : Nat)
    (hm : s.maxlen = some C) (hi : i < 0) (hC : (C : Int) < -i) :
    _get_item s i = (Except.error Err.indexError, s) := by
  unfold _get_item
  rw [if_pos hi]
  rw [if_pos (by simp [maxlenLT, hm]; omega)]

/-- The single-index lookup on a valid retained negative index drains
everything and returns the element counted from the end. -/
theorem _get_item_stateAt_neg_found {α : Type} (l : List α) (m : Option Nat) (k : Nat)
    (spent : Bool) (n : Int) (hk : k ≤ l.length) (hsp : spent = true → k = l.length)
    (hn : n < 0) (hml : ∀ C, m = some C → -n ≤ (C : Int))
    (hnL : -n ≤ (l.length : Int))
    (hgl : (n + (l.length : Int)).toNat < l.length) :
    _get_item (stateAt l m k spent) n =
      (Except.ok (l.get ⟨(n + (l.length : Int)).toNat, hgl⟩), stateAt l m l.length true) := by
  unfold _get_item
  rw [if_pos hn]
  rw [if_neg (by
    simp only [maxlenLT, maxlen_stateAt]
    match m with
    | Option.none => simp
    | some C =>
      have := hml C rfl
      simp
      omega)]
  rw [pyLen_stateAt l m k spent hk hsp]
  simp only
  have hfound := _get_item_tail_found l m l.length true (n + (l.length : Int))
    (le_refl _) (fun _ => rfl) (by omega) hgl (by
      rw [show max l.length ((n + (l.length : Int)).toNat + 1) = l.length from by omega]
      match m with
      | Option.none => simp
      | some C =>
        have := hml C rfl
        simp [Option.getD_some]
        omega)
  rw [hfound]
  rw [show max l.length ((n + (l.length : Int)).toNat + 1) = l.length from by omega]

/-- The single-index lookup on a negative index that is no longer
retained (or reaches before the beginning) drains everything and
raises IndexError. -/
theorem _get_item_stateAt_neg_miss {α : Type} (l : List α) (m : Option Nat) (k : Nat)
    (spent : Bool) (n : Int) (hk : k ≤ l.length) (hsp : spent = true → k = l.length)
    (hn : n < 0) (hml : ∀ C, m = some C → -n ≤ (C : Int))
    (hbad : ((min l.length (m.getD l.length) : Nat) : Int) < -n) :
    _get_item (stateAt l m k spent) n =
      (Except.error Err.indexError, stateAt l m l.length true) := by
  unfold _get_item
  rw [if_pos hn]
  rw [if_neg (by
    simp only [maxlenLT, maxlen_stateAt]
    match m with
    | Option.none => simp
    | some C =>
      have := hml C rfl
      simp
      omega)]
  rw [pyLen_stateAt l m k spent hk hsp]
  simp only
  by_cases hnn : 0 ≤ n + (l.length : Int)
  · rw [_get_item_tail_evicted l m l.length true (n + (l.length : Int))
      (le_refl _) (fun _ => rfl) hnn (by omega) (by
        rw [show max l.length ((n + (l.length : Int)).toNat + 1) = l.length from by omega]
        match m with
        | Option.none => simp at hbad ⊢; omega
        | some C => simp [Option.getD_some] at hbad ⊢; omega)]
    rw [show max l.length ((n + (l.length : Int)).toNat + 1) = l.length from by omega]
  · -- the shifted index is still negative: the buffer access misses
    have hchar := _len_at_least_stateAt l m l.length true (n + (l.length : Int) + 1)
      (le_refl _) (fun _ => rfl)
    rw [show min (max l.length (n + (l.length : Int) + 1).toNat) l.length = l.length
      from by omega] at hchar
    rw [show decide (n + (l.length : Int) + 1 ≤ (l.length : Int)) = true
      from by simp; omega] at hchar
    rw [show decide ((l.length : Int) < n + (l.length : Int) + 1) = false
      from by simp; omega] at hchar
    rw [Bool.or_false] at hchar
    unfold _get_item_tail
    rw [hchar]
    simp only [read_stateAt, buffer_stateAt, if_true]
    have hlen := length_bufAt l m l.length (le_refl _)
    unfold pyGet
    simp only [hlen]
    rw [if_pos (by omega : n + (l.length : Int) - (l.length : Int) < 0)]
    rw [if_neg (by
      have h1 := hbad
      omega)]

/-- Every state of an instance over l with maxlen m that arises in
practice has the canonical shape: some prefix of l has been pulled, the
buffer is the corresponding window, and the spent flag can only be on
once everything has been pulled. -/
def GoodState {α : Type} (l : List α) (m : Option Nat) (s : BII α) : Prop :=
  ∃ k spent, k ≤ l.length ∧ (spent = true → k = l.length) ∧ s = stateAt l m k spent

/-- A fresh instance has the canonical shape. -/
theorem good_init {α : Type} (l : List α) (m : Option Nat) : GoodState l m (mkBII l m) := by
  refine ⟨0, false, by omega, by simp, ?_⟩
  rw [stateAt_false]
  unfold mkBII bufAt
  simp

/-- The at-least probe preserves the canonical shape. -/
theorem good_len_at_least {α : Type} {l : List α} {m : Option Nat} {s : BII α}
    (a : Int) (h : GoodState l m s) : GoodState l m (_len_at_least s a).2 := by
  obtain ⟨k, spent, hk, hsp, rfl⟩ := h
  rw [_len_at_least_stateAt l m k spent a hk hsp]
  refine ⟨_, _, by omega, ?_, rfl⟩
  intro hsp'
  simp only [Bool.or_eq_true, decide_eq_true_eq] at hsp'
  rcases hsp' with h1 | h1
  · have := hsp h1
    omega
  · omega

/-- The at-most probe preserves the canonical shape. -/
theorem good_len_at_most {α : Type} {l : List α} {m : Option Nat} {s : BII α}
    (a : Int) (h : GoodState l m s) : GoodState l m (_len_at_most s a).2 := by
  obtain ⟨k, spent, hk, hsp, rfl⟩ := h
  rw [_len_at_most_stateAt l m k spent a hk hsp]
  refine ⟨_, _, by omega, ?_, rfl⟩
  intro hsp'
  simp only [Bool.or_eq_true, decide_eq_true_eq] at hsp'
  rcases hsp' with h1 | h1
  · have := hsp h1
    omega
  · omega

/-- The len method preserves the canonical shape. -/
theorem good_pyLen {α : Type} {l : List α} {m : Option Nat} {s : BII α}
    (h : GoodState l m s) : GoodState l m (pyLen s).2 := by
  obtain ⟨k, spent, hk, hsp, rfl⟩ := h
  rw [pyLen_stateAt l m k spent hk hsp]
  exact ⟨l.length, true, le_refl _, fun _ => rfl, rfl⟩

/-- The lookup tail preserves the canonical shape. -/
theorem good_get_item_tail {α : Type} {l : List α} {m : Option Nat} {s : BII α}
    (i : Int) (h : GoodState l m s) : GoodState l m (_get_item_tail s i).2 := by
  unfold _get_item_tail
  split
  · exact good_len_at_least _ h
  · exact good_len_at_least _ h

/-- The single-index lookup preserves the canonical shape. -/
theorem good_get_item {α : Type} {l : List α} {m : Option Nat} {s : BII α}
    (i : Int) (h : GoodState l m s) : GoodState l m (_get_item s i).2 := by
  unfold _get_item
  split
  · split
    · exact h
    · exact good_get_item_tail _ (good_pyLen h)
  · exact good_get_item_tail _ h

/-- The termination test preserves the canonical shape. -/
theorem good_valid_index {α : Type} {l : List α} {m : Option Nat} {s : BII α}
    (current : Int) (stop : Option Int) (step : Int) (sn : Bool)
    (h : GoodState l m s) : GoodState l m (valid_index s current stop step sn).2 := by
  unfold valid_index
  split
  · exact h
  · match stop with
    | Option.none => exact good_len_at_least _ h
    | some stp =>
      simp only
      split
      all_goals
        split
        · exact h
        · split
          · exact good_len_at_least _ h
          · exact good_len_at_most _ h

/-- The slice loop preserves the canonical shape. -/
theorem good_islice_loop {α : Type} {l : List α} {m : Option Nat}
    (s : BII α) (current : Int) (stop : Option Int) (step : Int) (sn : Bool)
    (hstep : step ≠ 0) (h : GoodState l m s) :
    GoodState l m (islice_loop s current stop step sn hstep).2 := by
  generalize hn : sliceMeasure s current stop sn step = n
  induction n using Nat.strong_induction_on generalizing s current with
  | _ n ih =>
    rw [islice_loop]
    split
    · next s₁ hv =>
      have hx := good_valid_index current stop step sn h
      rw [hv] at hx
      exact hx
    · next s₁ hv =>
      have h1 := good_valid_index current stop step sn h
      rw [hv] at h1
      split
      · next e s₂ hg =>
        have h2 := good_get_item current h1
        rw [hg] at h2
        exact h2
      · next v s₂ hg =>
        have h2 := good_get_item current h1
        rw [hg] at h2
        have hdec := sliceMeasure_decreases hstep hv hg
        have h3 := ih (sliceMeasure s₂ (current + step) stop sn step)
          (hn ▸ hdec) s₂ (current + step) h2 rfl
        split
        · next e s₃ heq =>
          rw [heq] at h3
          exact h3
        · next vs s₃ heq =>
          rw [heq] at h3
          exact h3

/-- The first trimming block preserves the canonical shape. -/
theorem good_trim_backward {α : Type} {l : List α} {m : Option Nat} {s : BII α}
    (c₀ : Int) (step : Int) (h : GoodState l m s) :
    GoodState l m (trim_backward s c₀ step).2 := by
  unfold trim_backward
  split
  · split
    · exact good_len_at_least _ h
    · exact good_pyLen (good_len_at_least _ h)
  · exact h

/-- The second trimming block preserves the canonical shape. -/
theorem good_trim_forward {α : Type} {l : List α} {m : Option Nat} {s : BII α}
    (c : Int) (step : Int) (h : GoodState l m s) :
    GoodState l m (trim_forward s c step).2 := by
  unfold trim_forward
  split
  · split
    · exact good_len_at_least _ h
    · exact good_pyLen (good_len_at_least _ h)
  · exact h

/-- The islice method preserves the canonical shape. -/
theorem good_islice {α : Type} {l : List α} {m : Option Nat} {s : BII α}
    (sl : PySlice) (h : GoodState l m s) : GoodState l m (_islice s sl).2 := by
  unfold _islice
  split
  · exact h
  · exact good_islice_loop _ _ _ _ _ _
      (good_trim_forward _ _ (good_trim_backward _ _ h))

/-- The getitem method preserves the canonical shape. -/
theorem good_getitem {α : Type} {l : List α} {m : Option Nat} {s : BII α}
    (ix : PyIndex) (h : GoodState l m s) : GoodState l m (getitem s ix).2 := by
  unfold getitem
  match ix with
  | PyIndex.int n => exact good_get_item n h
  | PyIndex.slice sl => exact good_islice sl h
  | PyIndex.indexable _ => exact h
  | PyIndex.other => exact h

/-- Every reachable state has the canonical shape. -/
theorem reachable_good {α : Type} {l : List α} {m : Option Nat} {s : BII α}
    (h : Reachable l m s) : GoodState l m s := by
  induction h with
  | init => exact good_init l m
  | getitem_step s ix hr ih => exact good_getitem ix ih
  | len_step s hr ih => exact good_pyLen ih
  | islice_step s sl hr ih => exact good_islice sl ih

/-- Modelled from the spec: the adjustment CPython applies to an
explicit slice start or stop index against a known length L, clamping
out-of-range values to the boundary appropriate for the direction. -/
def pyAdjust (L : Int) (neg : Bool) (i : Int) : Int :=
  if i < 0 then
    (if i + L < 0 then (if neg then -1 else 0) else i + L)
  else
    (if L ≤ i then (if neg then L - 1 else L) else i)

/-- Modelled from the spec: the effective start index of a Python slice
over a sequence of length L. -/
def pySliceStart (L : Int) (start : Option Int) (step : Int) : Int :=
  match start with
  | Option.none => if 0 < step then 0 else L - 1
  | some v => pyAdjust L (decide (step < 0)) v

/-- Modelled from the spec: the effective stop index of a Python slice
over a sequence of length L (-1 is the before-the-beginning sentinel of
a backward slice, not a from-the-end index). -/
def pySliceStop (L : Int) (stop : Option Int) (step : Int) : Int :=
  match stop with
  | Option.none => if 0 < step then L else -1
  | some v => pyAdjust L (decide (step < 0)) v

/-- Modelled from the spec: how many indices a Python slice with the
given adjusted start, adjusted stop and step visits. -/
def sliceCount (st en step : Int) : Nat :=
  if 0 < step then (if st < en then ((en - st + step - 1).fdiv step).toNat else 0)
  else (if en < st then ((st - en - step - 1).fdiv (-step)).toNat else 0)

/-- Modelled from the spec: the list of indices a Python slice visits. -/
def pySliceIdx (L : Int) (start stop : Option Int) (step : Int) : List Int :=
  (List.range (sliceCount (pySliceStart L start step) (pySliceStop L stop step) step)).map
    (fun j => pySliceStart L start step + step * (j : Int))

/-- Modelled from the spec: standard Python-style slicing of a
materialized sequence, the reference against which get_slice is
compared. -/
def pySliceList {α : Type} (l : List α) (start stop : Option Int) (step : Int) : List α :=
  (pySliceIdx (l.length : Int) start stop step).filterMap (fun i => l.get? i.toNat)

/-- A fresh instance is the canonical state with nothing pulled. -/
theorem mkBII_stateAt {α : Type} (l : List α) (m : Option Nat) :
    mkBII l m = stateAt l m 0 false := by
  rw [stateAt_false]
  unfold mkBII bufAt
  simp

/-- Validating a slice of plain integers keeps the integers, provided
the step is nonzero. -/
theorem validate_slice_ints (a b c : Int) (hc : c ≠ 0) :
    validate_slice ⟨SliceComp.int a, SliceComp.int b, SliceComp.int c⟩
      = Except.ok (a, some b, c) := by
  unfold validate_slice
  simp only [_validate_slice_component, Bind.bind, Except.bind]
  rw [if_neg hc]

/-- The at-least probe reads nothing when the request is already
covered by the read count. -/
theorem _len_at_least_no_read {α : Type} (s : BII α) (a : Int)
    (h : a ≤ (s.read : Int)) : _len_at_least s a = (true, s) := by
  unfold _len_at_least
  rw [if_neg (by omega)]

/-- The single-index lookup reads nothing when the position is already
within the read count: it only consults the buffer. -/
theorem _get_item_no_read {α : Type} (s : BII α) (i : Int) (hi : 0 ≤ i)
    (hr : i + 1 ≤ (s.read : Int)) :
    _get_item s i = (pyGet s.buffer (i - (s.read : Int)), s) := by
  unfold _get_item _get_item_tail
  rw [if_neg (by omega)]
  rw [_len_at_least_no_read s (i + 1) hr]
  simp

/-- The termination test for a forward slice between two nonnegative
positions is a direct comparison that touches no state. -/
theorem valid_index_forward_inrange {α : Type} (s : BII α) (current stp step : Int)
    (hc : 0 ≤ current) (hstop : 0 ≤ stp) (hpos : 0 < step) :
    valid_index s current (some stp) step false = (decide (current < stp), s) := by
  unfold valid_index
  rw [if_neg (by simp; omega)]
  simp only
  rw [if_pos hpos]
  simp only
  rw [if_pos (by simp only [decide_eq_decide]; omega)]

/-- A forward in-range slice loop leaves the state untouched: every
test is a pure comparison and every lookup is already buffered. -/
theorem islice_loop_state_within {α : Type} (s : BII α) (current stp step : Int)
    (hstep : step ≠ 0) (hc : 0 ≤ current) (hstop : 0 ≤ stp)
    (hk : stp ≤ (s.read : Int)) (hpos : 0 < step) :
    (islice_loop s current (some stp) step false hstep).2 = s := by
  generalize hn : (stp - current).toNat = n
  induction n using Nat.strong_induction_on generalizing current with
  | _ n ih =>
    rw [islice_loop]
    split
    · next s₁ hv =>
      rw [valid_index_forward_inrange s current stp step hc hstop hpos] at hv
      injection hv with hv1 hv2
      simp only
      exact hv2.symm
    · next s₁ hv =>
      rw [valid_index_forward_inrange s current stp step hc hstop hpos] at hv
      injection hv with hv1 hv2
      have hcs : current < stp := by simpa using hv1.symm
      subst hv2
      split
      · next e s₂ hg =>
        rw [_get_item_no_read s current hc (by omega)] at hg
        injection hg with hg1 hg2
        simp only
        exact hg2.symm
      · next v s₂ hg =>
        rw [_get_item_no_read s current hc (by omega)] at hg
        injection hg with hg1 hg2
        subst hg2
        have hrec := ih ((stp - (current + step)).toNat) (by omega)
          (current + step) (by omega) rfl
        split
        · next e s₃ heq =>
          rw [heq] at hrec
          simpa using hrec
        · next vs s₃ heq =>
          rw [heq] at hrec
          simpa using hrec

/-- The concrete state used in the counterexamples: an instance over
the list 10, 20, 30 with maxlen 1 after a lookup at position 2. -/
theorem demoState_eq :
    (getitem (mkBII ([10, 20, 30] : List Nat) (some 1)) (PyIndex.int 2)).2
      = stateAt [10, 20, 30] (some 1) 3 false := by
  show (_get_item (mkBII ([10, 20, 30] : List Nat) (some 1)) 2).2 = _
  rw [mkBII_stateAt]
  rw [_get_item_stateAt_found ([10, 20, 30] : List Nat) (some 1) 0 false 2
    (by simp) (by simp) (by omega) (by simp) (by simp)]
  norm_num
  rfl

/-- A slice component is convertible when its validation succeeds. -/
def convertibleComp (c : SliceComp) : Bool :=
  match _validate_slice_component c with
  | Except.ok _ => true
  | Except.error _ => false

/-- A convertible component validates to some value. -/
theorem convertibleComp_ok {c : SliceComp} (h : convertibleComp c = true) :
    ∃ o, _validate_slice_component c = Except.ok o := by
  unfold convertibleComp at h
  match hv : _validate_slice_component c with
  | Except.ok o => exact ⟨o, rfl⟩
  | Except.error e => rw [hv] at h; exact Bool.noConfusion h

/-- C10: an argument of getitem that is neither an int nor a slice is
rejected with a TypeError with the state untouched, even when the
object offers a dunder index conversion; yet exactly such an object is
accepted as a component inside a slice. -/
theorem C10_nonint_nonslice_rejected {α : Type} (s : BII α) (n : Int) :
    getitem s (PyIndex.indexable n) = (Except.error Err.typeError, s) ∧
    getitem s PyIndex.other = (Except.error Err.typeError, s) ∧
    _validate_slice_component (SliceComp.indexable n) = Except.ok (some n) :=
  ⟨rfl, rfl, rfl⟩

/-- C6: on a capacity-bounded instance, a negative index whose
magnitude exceeds the capacity fails immediately with IndexError and
the state is returned unchanged, so nothing is pulled. -/
theorem C6_deep_negative_fails {α : Type} (s : BII α) (i : Int) (C : Nat)
    (hm : s.maxlen = some C) (hi : i < 0) (hC : (C : Int) < -i) :
    _get_item s i = (Except.error Err.indexError, s) :=
  _get_item_neg_capacity s i C hm hi hC

/-- Witness for C6 at a concrete bounded instance and index. -/
theorem C6_witness :
    (mkBII ([10, 20, 30] : List Nat) (some 1)).maxlen = some 1 ∧
    (-2 : Int) < 0 ∧ ((1 : Nat) : Int) < -(-2 : Int) ∧
    _get_item (mkBII ([10, 20, 30] : List Nat) (some 1)) (-2)
      = (Except.error Err.indexError, mkBII ([10, 20, 30] : List Nat) (some 1)) :=
  ⟨rfl, by decide, by decide,
    C6_deep_negative_fails (mkBII ([10, 20, 30] : List Nat) (some 1)) (-2) 1 rfl
      (by decide) (by decide)⟩

/-- C7 counterexample: a slice whose step normalizes to zero but whose
start is not integer-convertible fails with TypeError, not with the
promised ValueError, so the zero-step error does not hold regardless of
the start and stop components. -/
theorem C7_counterexample :
    validate_slice ⟨SliceComp.noIndexable, SliceComp.none, SliceComp.int 0⟩
      = Except.error Err.typeError ∧
    validate_slice ⟨SliceComp.noIndexable, SliceComp.none, SliceComp.int 0⟩
      ≠ Except.error (Err.valueError "slice step cannot be zero") := by
  constructor
  · rfl
  · intro h
    rw [show validate_slice ⟨SliceComp.noIndexable, SliceComp.none, SliceComp.int 0⟩
      = Except.error Err.typeError from rfl] at h
    simp at h

/-- C7 amended: provided the start and stop components are themselves
valid (integer-convertible or absent), a step component normalizing to
the integer zero makes validation fail with the ValueError whose
message is: slice step cannot be zero. -/
theorem C7_step_zero_invalid (sa sb sc : SliceComp)
    (ha : convertibleComp sa = true) (hb : convertibleComp sb = true)
    (hc : _validate_slice_component sc = Except.ok (some 0)) :
    validate_slice ⟨sa, sb, sc⟩
      = Except.error (Err.valueError "slice step cannot be zero") := by
  obtain ⟨oa, ha'⟩ := convertibleComp_ok ha
  obtain ⟨ob, hb'⟩ := convertibleComp_ok hb
  unfold validate_slice
  simp only [ha', hb', hc, Bind.bind, Except.bind]
  exact if_pos trivial

/-- Witness for C7 at a concrete all-valid slice with step zero. -/
theorem C7_witness :
    convertibleComp SliceComp.none = true ∧
    _validate_slice_component (SliceComp.int 0) = Except.ok (some 0) ∧
    validate_slice ⟨SliceComp.none, SliceComp.none, SliceComp.int 0⟩
      = Except.error (Err.valueError "slice step cannot be zero") :=
  ⟨rfl, rfl,
    C7_step_zero_invalid SliceComp.none SliceComp.none (SliceComp.int 0) rfl rfl rfl⟩

/-- C8: the normalizer defaults an absent step to 1, an absent start
to 0 under a positive step and to -1 under a negative one, keeps the
stop absent when absent, and keeps present components as given. -/
theorem C8_normalizer_defaults (a b c : Option Int) (hc : c.getD 1 ≠ 0) :
    validate_slice ⟨SliceComp.ofOpt a, SliceComp.ofOpt b, SliceComp.ofOpt c⟩
      = Except.ok (a.getD (if 0 < c.getD 1 then 0 else -1), b, c.getD 1) := by
  cases c <;> cases a <;> cases b <;>
    simp_all [validate_slice, SliceComp.ofOpt, _validate_slice_component,
      Bind.bind, Except.bind]

/-- Witness for C8 at the all-absent slice. -/
theorem C8_witness :
    ((Option.none : Option Int).getD 1 ≠ 0) ∧
    validate_slice ⟨SliceComp.ofOpt Option.none, SliceComp.ofOpt Option.none,
        SliceComp.ofOpt Option.none⟩
      = Except.ok ((Option.none : Option Int).getD
          (if 0 < (Option.none : Option Int).getD 1 then 0 else -1),
        (Option.none : Option Int), (Option.none : Option Int).getD 1) :=
  ⟨by decide, C8_normalizer_defaults Option.none Option.none Option.none (by decide)⟩

/-- C3 counterexample: after pulling exactly C elements (here C is 1)
the read count still equals the buffer length, although the instance is
bounded and the count is not strictly below C; so equality does not
hold only when fewer than C elements have been pulled. -/
theorem C3_counterexample :
    Reachable ([7] : List Nat) (some 1)
      (getitem (mkBII ([7] : List Nat) (some 1)) (PyIndex.int 0)).2 ∧
    ((getitem (mkBII ([7] : List Nat) (some 1)) (PyIndex.int 0)).2).read
      = ((getitem (mkBII ([7] : List Nat) (some 1)) (PyIndex.int 0)).2).buffer.length ∧
    ¬ ((some 1 : Option Nat) = Option.none ∨
       ∃ C, (some 1 : Option Nat) = some C ∧
         ((getitem (mkBII ([7] : List Nat) (some 1)) (PyIndex.int 0)).2).read < C) := by
  have hstate : (getitem (mkBII ([7] : List Nat) (some 1)) (PyIndex.int 0)).2
      = stateAt [7] (some 1) 1 false := by
    show (_get_item (mkBII ([7] : List Nat) (some 1)) 0).2 = _
    rw [mkBII_stateAt]
    rw [_get_item_stateAt_found ([7] : List Nat) (some 1) 0 false 0
      (by decide) (by simp) (by decide) (by decide) (by decide)]
    norm_num
  refine ⟨Reachable.getitem_step _ _ Reachable.init, ?_, ?_⟩
  · rw [hstate]
    rfl
  · rw [hstate]
    rintro (h | ⟨C, hC, hlt⟩)
    · exact Option.noConfusion h
    · have hC' : C = 1 := (Option.some.inj hC).symm
      subst hC'
      exact absurd hlt (by decide)

/-- C3 amended: in every reachable state the read count is at least the
buffer length, with equality exactly when the buffer is unbounded or at
most C elements have been pulled so far. -/
theorem C3_invariant {α : Type} (l : List α) (m : Option Nat) (s : BII α)
    (h : Reachable l m s) :
    s.buffer.length ≤ s.read ∧
    (s.read = s.buffer.length ↔
      (m = Option.none ∨ ∃ C, m = some C ∧ s.read ≤ C)) := by
  obtain ⟨k, spent, hk, hsp, rfl⟩ := reachable_good h
  rw [read_stateAt, buffer_stateAt, length_bufAt l m k hk]
  constructor
  · omega
  · match m with
    | Option.none => simp
    | some C =>
      simp

/-- C2 counterexample: on a bounded instance (maxlen 1) in a reachable
state where position 2 has been looked up, the lookup at position 0,
although 0 is below the total length 3, raises IndexError instead of
returning the materialized element 10. -/
theorem C2_counterexample :
    Reachable ([10, 20, 30] : List Nat) (some 1)
      (getitem (mkBII ([10, 20, 30] : List Nat) (some 1)) (PyIndex.int 2)).2 ∧
    (0 : Nat) < ([10, 20, 30] : List Nat).length ∧
    (_get_item (getitem (mkBII ([10, 20, 30] : List Nat) (some 1)) (PyIndex.int 2)).2
        ((0 : Nat) : Int)).1 = Except.error Err.indexError ∧
    (_get_item (getitem (mkBII ([10, 20, 30] : List Nat) (some 1)) (PyIndex.int 2)).2
        ((0 : Nat) : Int)).1 ≠ Except.ok 10 := by
  have hev : (_get_item (stateAt ([10, 20, 30] : List Nat) (some 1) 3 false)
      ((0 : Nat) : Int)).1 = Except.error Err.indexError := by
    rw [_get_item_stateAt_evicted ([10, 20, 30] : List Nat) (some 1) 3 false
      ((0 : Nat) : Int) (by decide) (by simp) (by decide) (by decide) (by decide)]
  refine ⟨Reachable.getitem_step _ _ Reachable.init, by decide, ?_, ?_⟩
  · rw [demoState_eq]
    exact hev
  · rw [demoState_eq]
    rw [hev]
    simp

/-- C2 amended: restricted to unbounded instances, in every reachable
state the lookup at any position below the total length returns exactly
the element of the materialized sequence at that position. -/
theorem C2_get_eq_materialized {α : Type} (l : List α) (s : BII α) (n : Nat)
    (h : Reachable l Option.none s) (hn : n < l.length) :
    (_get_item s ((n : Nat) : Int)).1 = Except.ok (l.get ⟨n, hn⟩) := by
  obtain ⟨k, spent, hk, hsp, rfl⟩ := reachable_good h
  rw [_get_item_stateAt_found l Option.none k spent n hk hsp (by omega)
    (by simpa using hn) (by simp)]
  rfl

/-- Witness for C2 on a concrete unbounded instance. -/
theorem C2_witness :
    0 < ([5] : List Nat).length ∧
    (_get_item (mkBII ([5] : List Nat) Option.none) ((0 : Nat) : Int)).1
      = Except.ok (([5] : List Nat).get ⟨0, by decide⟩) :=
  ⟨by decide, C2_get_eq_materialized [5] _ 0 Reachable.init (by decide)⟩

/-- C4: on a bounded instance with capacity C, in any reachable state
where k elements have been pulled and k exceeds C, the lookup at
position k - C - 1 fails with IndexError while every lookup in the
window from k - C up to k - 1 succeeds and returns the corresponding
materialized element, each leaving the state unchanged. -/
theorem C4_eviction_window {α : Type} (l : List α) (C : Nat) (s : BII α) (k : Nat)
    (h : Reachable l (some C) s) (hread : s.read = k) (hCk : C < k) :
    (_get_item s ((k : Int) - (C : Int) - 1)).1 = Except.error Err.indexError ∧
    ∀ i : Nat, k - C ≤ i → i < k →
      _get_item s ((i : Nat) : Int)
        = ((l[i]?).elim (Except.error Err.indexError) Except.ok, s) := by
  obtain ⟨k₀, spent, hk, hsp, rfl⟩ := reachable_good h
  rw [read_stateAt] at hread
  subst hread
  constructor
  · rw [_get_item_stateAt_evicted l (some C) k₀ spent ((k₀ : Int) - (C : Int) - 1)
      hk hsp (by omega) (by omega) (by simp only [Option.getD_some]; omega)]
  · intro i h1 h2
    have hil : i < l.length := by omega
    rw [_get_item_stateAt_found l (some C) k₀ spent ((i : Nat) : Int)
      hk hsp (by omega) (by simpa using hil)
      (by simp only [Option.getD_some]; omega)]
    rw [List.getElem?_eq_getElem hil]
    rw [show max k₀ (((i : Nat) : Int).toNat + 1) = k₀ from by omega]
    rfl

/-- Witness for C4 on the concrete bounded instance after a lookup at
position 2. -/
theorem C4_witness :
    Reachable ([10, 20, 30] : List Nat) (some 1)
      (getitem (mkBII ([10, 20, 30] : List Nat) (some 1)) (PyIndex.int 2)).2 ∧
    (getitem (mkBII ([10, 20, 30] : List Nat) (some 1)) (PyIndex.int 2)).2.read = 3 ∧
    1 < 3 ∧
    (_get_item (getitem (mkBII ([10, 20, 30] : List Nat) (some 1)) (PyIndex.int 2)).2
        ((3 : Int) - (1 : Int) - 1)).1 = Except.error Err.indexError ∧
    _get_item (getitem (mkBII ([10, 20, 30] : List Nat) (some 1)) (PyIndex.int 2)).2
        ((2 : Nat) : Int)
      = ((([10, 20, 30] : List Nat)[(2 : Nat)]?).elim (Except.error Err.indexError) Except.ok,
         (getitem (mkBII ([10, 20, 30] : List Nat) (some 1)) (PyIndex.int 2)).2) := by
  have hr : Reachable ([10, 20, 30] : List Nat) (some 1)
      (getitem (mkBII ([10, 20, 30] : List Nat) (some 1)) (PyIndex.int 2)).2 :=
    Reachable.getitem_step _ _ Reachable.init
  have hread : (getitem (mkBII ([10, 20, 30] : List Nat) (some 1)) (PyIndex.int 2)).2.read = 3 := by
    rw [demoState_eq]
    rfl
  have hmain := C4_eviction_window [10, 20, 30] 1
    (getitem (mkBII ([10, 20, 30] : List Nat) (some 1)) (PyIndex.int 2)).2 3
    hr hread (by omega)
  exact ⟨hr, hread, by omega, hmain.1, hmain.2 2 (by omega) (by omega)⟩

/-- C5: in any reachable state, for a negative index n whose magnitude
is at most the total length and, on bounded instances, at most the
capacity, the lookup at n and the lookup at length plus n both return
the element of the materialized sequence at position length plus n. -/
theorem C5_negative_index {α : Type} (l : List α) (m : Option Nat) (s : BII α)
    (n : Int) (j : Nat) (h : Reachable l m s) (hn : n < 0)
    (hnL : -n ≤ (l.length : Int)) (hml : ∀ C, m = some C → -n ≤ (C : Int))
    (hj : (j : Int) = (l.length : Int) + n) (hjl : j < l.length) :
    (_get_item s n).1 = Except.ok (l.get ⟨j, hjl⟩) ∧
    (_get_item s ((l.length : Int) + n)).1 = Except.ok (l.get ⟨j, hjl⟩) := by
  obtain ⟨k, spent, hk, hsp, rfl⟩ := reachable_good h
  constructor
  · rw [_get_item_stateAt_neg_found l m k spent n hk hsp hn hml hnL (by omega)]
    simp only [show (n + (l.length : Int)).toNat = j from by omega]
  · rw [_get_item_stateAt_found l m k spent ((l.length : Int) + n) hk hsp (by omega)
      (by omega) ?_]
    · simp only [show ((l.length : Int) + n).toNat = j from by omega]
    · match m with
      | Option.none => simp
      | some C =>
        have hC := hml C rfl
        simp only [Option.getD_some]
        omega

/-- Witness for C5 on a concrete unbounded instance with index -1. -/
theorem C5_witness :
    (-1 : Int) < 0 ∧ -(-1 : Int) ≤ (([10, 20] : List Nat).length : Int) ∧
    ((1 : Nat) : Int) = (([10, 20] : List Nat).length : Int) + (-1) ∧
    1 < ([10, 20] : List Nat).length ∧
    (_get_item (mkBII ([10, 20] : List Nat) Option.none) (-1)).1
      = Except.ok (([10, 20] : List Nat).get ⟨1, by decide⟩) ∧
    (_get_item (mkBII ([10, 20] : List Nat) Option.none)
        ((([10, 20] : List Nat).length : Int) + (-1))).1
      = Except.ok (([10, 20] : List Nat).get ⟨1, by decide⟩) := by
  have hmain := C5_negative_index ([10, 20] : List Nat) Option.none
    (mkBII ([10, 20] : List Nat) Option.none) (-1) 1 Reachable.init
    (by decide) (by decide) (fun C hC => Option.noConfusion hC) (by decide) (by decide)
  exact ⟨by decide, by decide, by decide, by decide, hmain.1, hmain.2⟩

/-- Witness for C3 on a fresh unbounded instance. -/
theorem C3_witness :
    (mkBII ([3] : List Nat) Option.none).buffer.length
      ≤ (mkBII ([3] : List Nat) Option.none).read ∧
    ((mkBII ([3] : List Nat) Option.none).read
        = (mkBII ([3] : List Nat) Option.none).buffer.length ↔
      ((Option.none : Option Nat) = Option.none ∨
        ∃ C, (Option.none : Option Nat) = some C ∧
          (mkBII ([3] : List Nat) Option.none).read ≤ C)) :=
  C3_invariant [3] Option.none _ Reachable.init

/-- C9: a slice request with a set nonnegative stop, nonnegative start
and positive step whose range lies entirely within the already-read
region leaves the read count, and in fact the entire state, unchanged
when its result is fully materialized. -/
theorem C9_requery_reads_nothing {α : Type} (s : BII α) (start stp step : Int)
    (hstart : 0 ≤ start) (hstop : 0 ≤ stp) (hread : stp ≤ (s.read : Int))
    (hpos : 0 < step) :
    (_islice s ⟨SliceComp.int start, SliceComp.int stp, SliceComp.int step⟩).2.read
      = s.read ∧
    (_islice s ⟨SliceComp.int start, SliceComp.int stp, SliceComp.int step⟩).2 = s := by
  have hval := validate_slice_ints start stp step (by omega)
  have hmain : (_islice s ⟨SliceComp.int start, SliceComp.int stp, SliceComp.int step⟩).2
      = s := by
    unfold _islice
    split
    · next e heq =>
      rw [hval] at heq
    · next c₀ stop₀ step₀ heq =>
      rw [hval] at heq
      have h1 := Except.ok.inj heq
      have ha : start = c₀ := congrArg (fun t => t.1) h1
      have hb : some stp = stop₀ := congrArg (fun t => t.2.1) h1
      have hc : step = step₀ := congrArg (fun t => t.2.2) h1
      subst ha
      subst hb
      subst hc
      simp only
      rw [show trim_backward s start step = (start, s) from by
        unfold trim_backward
        rw [if_neg (by rintro ⟨h1', h2'⟩; omega)]]
      simp only
      rw [show trim_forward s start step = (start, s) from by
        unfold trim_forward
        rw [if_neg (by rintro ⟨h1', h2'⟩; omega)]]
      simp only
      rw [show decide (start < 0) = false from by simpa using hstart]
      exact islice_loop_state_within s start stp step _ hstart hstop hread hpos
  exact ⟨by rw [hmain], hmain⟩

/-- Witness for C9 on a concrete state with two elements read. -/
theorem C9_witness :
    (0 : Int) ≤ 0 ∧ (0 : Int) ≤ 2 ∧
    (2 : Int) ≤ ((⟨some [9], [7, 8], 2, Option.none⟩ : BII Nat).read : Int) ∧
    (0 : Int) < 1 ∧
    (_islice (⟨some [9], [7, 8], 2, Option.none⟩ : BII Nat)
        ⟨SliceComp.int 0, SliceComp.int 2, SliceComp.int 1⟩).2.read
      = (⟨some [9], [7, 8], 2, Option.none⟩ : BII Nat).read ∧
    (_islice (⟨some [9], [7, 8], 2, Option.none⟩ : BII Nat)
        ⟨SliceComp.int 0, SliceComp.int 2, SliceComp.int 1⟩).2
      = (⟨some [9], [7, 8], 2, Option.none⟩ : BII Nat) := by
  have hmain := C9_requery_reads_nothing (⟨some [9], [7, 8], 2, Option.none⟩ : BII Nat)
    0 2 1 (by decide) (by decide) (by decide) (by decide)
  exact ⟨by decide, by decide, by decide, by decide, hmain.1, hmain.2⟩

/-- C1 as a code bug, shown at the failing input: on the empty
unbounded instance, the slice request from 0 to 1 with step 1 raises
IndexError from inside the loop, while Python-style slicing of the
materialized (empty) sequence yields the empty result.  The termination
test compares the position 0 and the stop 1 directly because both are
nonnegative, and the subsequent element lookup runs off the end. -/
theorem C1_stop_overrun_raises :
    (_islice (mkBII ([] : List Nat) Option.none)
        ⟨SliceComp.int 0, SliceComp.int 1, SliceComp.int 1⟩).1
      = Except.error Err.indexError ∧
    pySliceList ([] : List Nat) (some 0) (some 1) 1 = [] := by
  constructor
  · unfold _islice
    split
    · next e heq =>
      rw [validate_slice_ints 0 1 1 (by omega)] at heq
      exact Except.noConfusion heq
    · next c₀ stop₀ step₀ heq =>
      rw [validate_slice_ints 0 1 1 (by omega)] at heq
      have h1 := Except.ok.inj heq
      have ha : (0 : Int) = c₀ := congrArg (fun t => t.1) h1
      have hb : some (1 : Int) = stop₀ := congrArg (fun t => t.2.1) h1
      have hc : (1 : Int) = step₀ := congrArg (fun t => t.2.2) h1
      subst ha
      subst hb
      subst hc
      simp only
      rw [show trim_backward (mkBII ([] : List Nat) Option.none) 0 1
          = (0, mkBII ([] : List Nat) Option.none) from by
        unfold trim_backward
        rw [if_neg (by rintro ⟨h1', h2'⟩; omega)]]
      simp only
      rw [show trim_forward (mkBII ([] : List Nat) Option.none) 0 1
          = (0, mkBII ([] : List Nat) Option.none) from by
        unfold trim_forward
        rw [if_neg (by rintro ⟨h1', h2'⟩; omega)]]
      simp only
      rw [show decide ((0 : Int) < 0) = false from by decide]
      rw [islice_loop]
      split
      · next s₁ hv =>
        rw [valid_index_forward_inrange (mkBII ([] : List Nat) Option.none) 0 1 1
          (by omega) (by omega) (by omega)] at hv
        have := congrArg Prod.fst hv
        simp at this
      · next s₁ hv =>
        rw [valid_index_forward_inrange (mkBII ([] : List Nat) Option.none) 0 1 1
          (by omega) (by omega) (by omega)] at hv
        injection hv with hv1 hv2
        subst hv2
        split
        · next e s₂ hg =>
          rw [mkBII_stateAt] at hg
          rw [_get_item_stateAt_oob ([] : List Nat) Option.none 0 false 0
            (by simp) (by simp) (by simp)] at hg
          injection hg with hg1 hg2
          have he := Except.error.inj hg1
          simp only
          rw [← he]
        · next v s₂ hg =>
          rw [mkBII_stateAt] at hg
          rw [_get_item_stateAt_oob ([] : List Nat) Option.none 0 false 0
            (by simp) (by simp) (by simp)] at hg
          have := congrArg Prod.fst hg
          simp at this
  · rfl

end Indexify
